import Mathlib

/- Verification of the metric-derivation function
   calculate_classification_metrics of src/scripts/precision_recall.py.

   The confusion matrix is embedded as a list of rows of natural numbers.
   The derived counts (tp, fp, fn, tn) are embedded as integers and the
   per-class metrics as exact rationals, except the Matthews correlation
   coefficient, whose square root forces real values.  Rational and real
   division by zero is 0 in Lean; every place where this convention is
   reachable is noted at the definition it concerns. -/

namespace PrecisionRecall

/-- A confusion matrix: a list of rows, each row a list of counts. -/
abbrev CMatrix := List (List ℕ)

/-- The number of rows; the code takes cm.shape[0] as the class count. -/
def nClasses (cm : CMatrix) : ℕ := cm.length

/-- The common row length of the 2-D array (cm.shape[1]). -/
def nCols (cm : CMatrix) : ℕ := (cm.headD []).length

/-- The nested list denotes a rectangular 2-D array, so np.array builds a
2-D integer array rather than failing. -/
def rect (cm : CMatrix) : Prop := ∀ row ∈ cm, row.length = nCols cm

instance (cm : CMatrix) : Decidable (rect cm) := List.decidableBAll _ cm

/-- The entry cm[i, j]; out-of-range reads default to 0 (all uses that an
execution of the code reaches are in range). -/
def entry (cm : CMatrix) (i j : ℕ) : ℕ := (cm.getD i []).getD j 0

/-- np.sum(cm[i, :]), the row sum. -/
def rowSum (cm : CMatrix) (i : ℕ) : ℕ := (cm.getD i []).sum

/-- np.sum(cm[:, j]), the column sum over all rows. -/
def colSum (cm : CMatrix) (j : ℕ) : ℕ :=
  ∑ i ∈ Finset.range cm.length, entry cm i j

/-- total_samples = np.sum(cm). -/
def totalSamples (cm : CMatrix) : ℕ := (cm.map List.sum).sum

/-- class_samples = np.sum(cm, axis=1), the per-row sums. -/
def classSamples (cm : CMatrix) : List ℕ := cm.map List.sum

/-- correct_predictions = np.trace(cm): the diagonal sum, running to the
shorter of the two dimensions as np.trace does. -/
def traceCM (cm : CMatrix) : ℕ :=
  ∑ i ∈ Finset.range (min cm.length (nCols cm)), entry cm i i

/-- tp = cm[class_idx, class_idx]. -/
def tp (cm : CMatrix) (c : ℕ) : ℤ := entry cm c c

/-- fp = np.sum(cm[:, class_idx]) - tp. -/
def fp (cm : CMatrix) (c : ℕ) : ℤ := colSum cm c - tp cm c

/-- fn = np.sum(cm[class_idx, :]) - tp. -/
def fn (cm : CMatrix) (c : ℕ) : ℤ := rowSum cm c - tp cm c

/-- tn = total_samples - (tp + fp + fn). -/
def tn (cm : CMatrix) (c : ℕ) : ℤ :=
  totalSamples cm - (tp cm c + fp cm c + fn cm c)

/-- precision = tp / (tp + fp) if (tp + fp) > 0 else 0. -/
def precision (cm : CMatrix) (c : ℕ) : ℚ :=
  if 0 < tp cm c + fp cm c
  then (tp cm c : ℚ) / ((tp cm c + fp cm c : ℤ) : ℚ) else 0

/-- recall' = tp / (tp + fn) if (tp + fn) > 0 else 0. -/
def recall' (cm : CMatrix) (c : ℕ) : ℚ :=
  if 0 < tp cm c + fn cm c
  then (tp cm c : ℚ) / ((tp cm c + fn cm c : ℤ) : ℚ) else 0

/-- f1 = 2 * (precision * recall') / (precision + recall') if
(precision + recall') > 0 else 0. -/
def f1 (cm : CMatrix) (c : ℕ) : ℚ :=
  if 0 < precision cm c + recall' cm c
  then 2 * (precision cm c * recall' cm c) / (precision cm c + recall' cm c)
  else 0

/-- sensitivity = tp / (tp + fn) if (tp + fn) > 0 else 0 (the code
recomputes the recall' expression under this name). -/
def sensitivity (cm : CMatrix) (c : ℕ) : ℚ :=
  if 0 < tp cm c + fn cm c
  then (tp cm c : ℚ) / ((tp cm c + fn cm c : ℤ) : ℚ) else 0

/-- specificity = tn / (tn + fp) if (tn + fp) > 0 else 0. -/
def specificity (cm : CMatrix) (c : ℕ) : ℚ :=
  if 0 < tn cm c + fp cm c
  then (tn cm c : ℚ) / ((tn cm c + fp cm c : ℤ) : ℚ) else 0

/-- balanced_accuracy = (sensitivity + specificity) / 2. -/
def balancedAccuracy (cm : CMatrix) (c : ℕ) : ℚ :=
  (sensitivity cm c + specificity cm c) / 2

/-- weighted_accuracy = (tp + tn) / (tp + tn + fp + fn).  The code has no
zero guard here; the denominator equals total_samples, and the value is
only returned when total_samples is nonzero (otherwise the call fails
earlier, at np.average), so the division-by-zero convention of ℚ is never
exposed by compute. -/
def weightedAccuracy (cm : CMatrix) (c : ℕ) : ℚ :=
  ((tp cm c + tn cm c : ℤ) : ℚ)
    / ((tp cm c + tn cm c + fp cm c + fn cm c : ℤ) : ℚ)

/-- The numerator (tp * tn) - (fp * fn) of the MCC. -/
def mccNum (cm : CMatrix) (c : ℕ) : ℤ :=
  tp cm c * tn cm c - fp cm c * fn cm c

/-- The radicand (tp+fp)*(tp+fn)*(tn+fp)*(tn+fn) of the MCC denominator. -/
def mccRad (cm : CMatrix) (c : ℕ) : ℤ :=
  (tp cm c + fp cm c) * (tp cm c + fn cm c)
    * (tn cm c + fp cm c) * (tn cm c + fn cm c)

/-- mcc_denominator = np.sqrt((tp+fp)*(tp+fn)*(tn+fp)*(tn+fn));
mcc = ((tp * tn) - (fp * fn)) / mcc_denominator if mcc_denominator != 0
else 0. -/
noncomputable def mcc (cm : CMatrix) (c : ℕ) : ℝ :=
  if Real.sqrt (mccRad cm c) ≠ 0
  then (mccNum cm c : ℝ) / Real.sqrt (mccRad cm c) else 0

/-- The per-class precision sequence built by the class loop. -/
def precisionList (cm : CMatrix) : List ℚ :=
  (List.range (nClasses cm)).map (precision cm)

/-- The per-class recall' sequence built by the class loop. -/
def recallList (cm : CMatrix) : List ℚ :=
  (List.range (nClasses cm)).map (recall' cm)

/-- The per-class f1_score sequence built by the class loop. -/
def f1List (cm : CMatrix) : List ℚ :=
  (List.range (nClasses cm)).map (f1 cm)

/-- The per-class balanced_accuracy sequence built by the class loop. -/
def balancedAccuracyList (cm : CMatrix) : List ℚ :=
  (List.range (nClasses cm)).map (balancedAccuracy cm)

/-- The per-class weighted_accuracy sequence built by the class loop. -/
def weightedAccuracyList (cm : CMatrix) : List ℚ :=
  (List.range (nClasses cm)).map (weightedAccuracy cm)

/-- The per-class mcc sequence built by the class loop. -/
noncomputable def mccList (cm : CMatrix) : List ℝ :=
  (List.range (nClasses cm)).map (mcc cm)

/-- np.mean(xs): the sum divided by the length. -/
def npMean {K : Type} [DivisionRing K] (xs : List K) : K :=
  xs.sum / (xs.length : K)

/-- np.average(xs, weights=ws): the weight-product sum divided by the
weight sum.  When the weights sum to zero np.average raises
ZeroDivisionError; compute tests that condition before this value is
used, so the division-by-zero convention 0 is never exposed. -/
def npAverage {K : Type} [DivisionRing K] (xs : List K) (ws : List ℕ) : K :=
  (List.zipWith (fun x (w : ℕ) => x * (w : K)) xs ws).sum / ((ws.sum : ℕ) : K)

/-- accuracy = correct_predictions / total_samples.  For a zero-total
matrix numpy produces NaN here, but such a call never returns (np.average
raises before the function ends), so the value is unobservable. -/
def accuracyQ (cm : CMatrix) : ℚ :=
  (traceCM cm : ℚ) / (totalSamples cm : ℚ)

/-- The dictionary returned by calculate_classification_metrics: the six
per-class sequences and the overall scalars. -/
structure MetricsResult where
  precision : List ℚ
  recall' : List ℚ
  f1_score : List ℚ
  balanced_accuracy : List ℚ
  weighted_accuracy : List ℚ
  mcc : List ℝ
  accuracy : ℚ
  macro_precision : ℚ
  macro_recall : ℚ
  macro_f1_score : ℚ
  macro_balanced_accuracy : ℚ
  macro_weighted_accuracy : ℚ
  macro_mcc : ℝ
  weighted_precision : ℚ
  weighted_recall : ℚ
  weighted_f1_score : ℚ
  weighted_balanced_accuracy : ℚ
  weighted_weighted_accuracy : ℚ
  weighted_mcc : ℝ

/-- The result dictionary assembled on the non-raising path. -/
noncomputable def results (cm : CMatrix) : MetricsResult where
  precision := precisionList cm
  recall' := recallList cm
  f1_score := f1List cm
  balanced_accuracy := balancedAccuracyList cm
  weighted_accuracy := weightedAccuracyList cm
  mcc := mccList cm
  accuracy := accuracyQ cm
  macro_precision := npMean (precisionList cm)
  macro_recall := npMean (recallList cm)
  macro_f1_score := npMean (f1List cm)
  macro_balanced_accuracy := npMean (balancedAccuracyList cm)
  macro_weighted_accuracy := npMean (weightedAccuracyList cm)
  macro_mcc := npMean (mccList cm)
  weighted_precision := npAverage (precisionList cm) (classSamples cm)
  weighted_recall := npAverage (recallList cm) (classSamples cm)
  weighted_f1_score := npAverage (f1List cm) (classSamples cm)
  weighted_balanced_accuracy :=
    npAverage (balancedAccuracyList cm) (classSamples cm)
  weighted_weighted_accuracy :=
    npAverage (weightedAccuracyList cm) (classSamples cm)
  weighted_mcc := npAverage (mccList cm) (classSamples cm)

/-- The exceptions the function can raise on its inputs: ValueError from
np.array on a ragged nested list or from np.sum(cm, axis=1) on the empty
list (a 1-D array has no axis 1); IndexError from cm[c, c] in the class
loop when there are more rows than columns; ZeroDivisionError from
np.average when the weights (the row sums) sum to zero. -/
inductive PyError where
  | valueError : PyError
  | indexError : PyError
  | zeroDivisionError : PyError
deriving DecidableEq

/-- calculate_classification_metrics(cm): the function body performs no
shape validation; the exceptional exits it can take are, in evaluation
order, the three of PyError, and otherwise it returns the full result
dictionary. -/
noncomputable def compute (cm : CMatrix) : Except PyError MetricsResult :=
  if ¬ rect cm then .error .valueError
  else if cm.length = 0 then .error .valueError
  else if nCols cm < cm.length then .error .indexError
  else if totalSamples cm = 0 then .error .zeroDivisionError
  else .ok (results cm)

/-- On a rectangular matrix with at least one row, at least as many
columns as rows, and a nonzero total, the call returns the assembled
result. -/
theorem compute_eq_ok (cm : CMatrix) (hr : rect cm) (h0 : cm.length ≠ 0)
    (hc : cm.length ≤ nCols cm) (ht : totalSamples cm ≠ 0) :
    compute cm = .ok (results cm) := by
  unfold compute
  rw [if_neg (by simpa using hr), if_neg h0, if_neg (by omega), if_neg ht]

/-- A returned .ok result can only come from the final branch, and is the
assembled dictionary. -/
theorem compute_ok_inv (cm : CMatrix) (r : MetricsResult)
    (h : compute cm = .ok r) :
    rect cm ∧ cm.length ≠ 0 ∧ cm.length ≤ nCols cm ∧
      totalSamples cm ≠ 0 ∧ r = results cm := by
  unfold compute at h
  by_cases h1 : ¬ rect cm
  · rw [if_pos h1] at h; cases h
  by_cases h2 : cm.length = 0
  · rw [if_neg h1, if_pos h2] at h; cases h
  by_cases h3 : nCols cm < cm.length
  · rw [if_neg h1, if_neg h2, if_pos h3] at h; cases h
  by_cases h4 : totalSamples cm = 0
  · rw [if_neg h1, if_neg h2, if_neg h3, if_pos h4] at h; cases h
  rw [if_neg h1, if_neg h2, if_neg h3, if_neg h4] at h
  cases h
  exact ⟨not_not.mp h1, h2, by omega, h4, rfl⟩

/- Sum bookkeeping lemmas connecting the list-level sums of the code to
indexed Finset sums. -/

theorem list_sum_eq_range {M : Type} [AddCommMonoid M] (l : List M) :
    l.sum = ∑ i ∈ Finset.range l.length, l.getD i 0 := by
  induction l with
  | nil => simp
  | cons a t ih =>
      rw [List.sum_cons, ih, List.length_cons, Finset.sum_range_succ']
      simp [add_comm]

theorem map_range_sum {M : Type} [AddCommMonoid M] (n : ℕ) (f : ℕ → M) :
    ((List.range n).map f).sum = ∑ i ∈ Finset.range n, f i := by
  induction n with
  | zero => simp
  | succ m ih => rw [List.range_succ, Finset.sum_range_succ, ← ih]; simp

theorem getD_map_range {M : Type} (n i : ℕ) (f : ℕ → M)
    (d : M) (h : i < n) : ((List.range n).map f).getD i d = f i := by
  rw [List.getD_eq_getElem?_getD, List.getElem?_map, List.getElem?_range h]
  rfl

theorem zipWith_mul_sum {K : Type} [NonUnitalNonAssocSemiring K]
    (xs : List K) (ws : List ℕ) (g : ℕ → K) :
    (List.zipWith (fun x w => x * g w) xs ws).sum
      = ∑ i ∈ Finset.range (min xs.length ws.length),
          xs.getD i 0 * g (ws.getD i 0) := by
  induction xs generalizing ws with
  | nil => simp
  | cons x xt ih =>
      cases ws with
      | nil => simp
      | cons w wt =>
          rw [List.zipWith_cons_cons, List.sum_cons, ih wt]
          have : min (x :: xt).length (w :: wt).length
              = min xt.length wt.length + 1 := by
            simp [Nat.succ_min_succ]
          rw [this, Finset.sum_range_succ']
          simp [add_comm]

/-- The row-sum list entry i is the row sum of row i (out of range, both
sides are 0). -/
theorem classSamples_getD (cm : CMatrix) (i : ℕ) :
    (classSamples cm).getD i 0 = rowSum cm i := by
  unfold classSamples rowSum
  rcases Nat.lt_or_ge i cm.length with h | h
  · rw [List.getD_eq_getElem?_getD, List.getElem?_map,
      List.getElem?_eq_getElem h, List.getD_eq_getElem?_getD,
      List.getElem?_eq_getElem h]
    rfl
  · rw [List.getD_eq_getElem?_getD, List.getElem?_map,
      List.getElem?_eq_none (by simpa using h), List.getD_eq_getElem?_getD,
      List.getElem?_eq_none (by simpa using h)]
    rfl

/-- The grand total is the sum of the row sums. -/
theorem totalSamples_eq_sum_rowSum (cm : CMatrix) :
    totalSamples cm = ∑ i ∈ Finset.range cm.length, rowSum cm i := by
  have h := list_sum_eq_range (cm.map List.sum)
  rw [List.length_map] at h
  unfold totalSamples
  rw [h]
  exact Finset.sum_congr rfl fun i _ => classSamples_getD cm i

/-- The sum of the weights handed to np.average is the grand total. -/
theorem classSamples_sum (cm : CMatrix) :
    (classSamples cm).sum = totalSamples cm := rfl

/-- A default-0 list read is bounded by the list sum. -/
theorem getD_le_sum (l : List ℕ) (i : ℕ) : l.getD i 0 ≤ l.sum := by
  induction l generalizing i with
  | nil => simp
  | cons a t ih =>
      cases i with
      | zero => simp
      | succ j =>
          rw [List.getD_cons_succ, List.sum_cons]
          exact le_add_left (ih j)

/-- Any entry of row i is at most the row sum. -/
theorem entry_le_rowSum (cm : CMatrix) (i j : ℕ) :
    entry cm i j ≤ rowSum cm i := getD_le_sum _ _

/-- The diagonal entry of a row is at most the column sum of that index. -/
theorem tp_le_colSum (cm : CMatrix) (c : ℕ) (h : c < cm.length) :
    entry cm c c ≤ colSum cm c := by
  unfold colSum
  exact Finset.single_le_sum (f := fun i => entry cm i c)
    (fun i _ => Nat.zero_le _) (Finset.mem_range.mpr h)

/-- The union bound: column sum plus row sum of index c exceeds the grand
total by at most the diagonal entry. -/
theorem colSum_add_rowSum_le (cm : CMatrix) (c : ℕ) (h : c < cm.length) :
    colSum cm c + rowSum cm c ≤ totalSamples cm + entry cm c c := by
  have hc : c ∈ Finset.range cm.length := Finset.mem_range.mpr h
  have h1 : entry cm c c + ∑ i ∈ (Finset.range cm.length).erase c,
      entry cm i c = colSum cm c :=
    Finset.add_sum_erase _ (f := fun i => entry cm i c) hc
  have h2 : rowSum cm c + ∑ i ∈ (Finset.range cm.length).erase c,
      rowSum cm i = totalSamples cm := by
    rw [totalSamples_eq_sum_rowSum]
    exact Finset.add_sum_erase _ _ hc
  have h3 : ∑ i ∈ (Finset.range cm.length).erase c, entry cm i c
      ≤ ∑ i ∈ (Finset.range cm.length).erase c, rowSum cm i :=
    Finset.sum_le_sum fun i _ => entry_le_rowSum cm i c
  omega

theorem tp_nonneg (cm : CMatrix) (c : ℕ) : 0 ≤ tp cm c :=
  Int.ofNat_nonneg _

theorem fp_nonneg (cm : CMatrix) (c : ℕ) (h : c < cm.length) :
    0 ≤ fp cm c := by
  have := tp_le_colSum cm c h
  simp only [fp, tp]
  omega

theorem fn_nonneg (cm : CMatrix) (c : ℕ) : 0 ≤ fn cm c := by
  have := entry_le_rowSum cm c c
  simp only [fn, tp]
  omega

theorem tn_nonneg (cm : CMatrix) (c : ℕ) (h : c < cm.length) :
    0 ≤ tn cm c := by
  have := colSum_add_rowSum_le cm c h
  simp only [tn, tp, fp, fn]
  omega

/-- tp + tn + fp + fn equals the grand total. -/
theorem counts_sum (cm : CMatrix) (c : ℕ) :
    tp cm c + tn cm c + fp cm c + fn cm c = (totalSamples cm : ℤ) := by
  unfold tn
  ring

/- Range facts for the guarded ratios and the individual metrics. -/

theorem ratio_nonneg (a b : ℤ) (ha : 0 ≤ a) :
    0 ≤ (if 0 < a + b then (a : ℚ) / ((a + b : ℤ) : ℚ) else 0) := by
  split
  · exact div_nonneg (by exact_mod_cast ha)
      (by exact_mod_cast le_of_lt (by assumption))
  · exact le_refl 0

theorem ratio_le_one (a b : ℤ) (_ha : 0 ≤ a) (hb : 0 ≤ b) :
    (if 0 < a + b then (a : ℚ) / ((a + b : ℤ) : ℚ) else 0) ≤ 1 := by
  split
  · rename_i h
    rw [div_le_one (by exact_mod_cast h)]
    exact_mod_cast by omega
  · norm_num

theorem precision_nonneg (cm : CMatrix) (c : ℕ) : 0 ≤ precision cm c :=
  ratio_nonneg _ _ (tp_nonneg cm c)

theorem precision_le_one (cm : CMatrix) (c : ℕ) (h : c < cm.length) :
    precision cm c ≤ 1 :=
  ratio_le_one _ _ (tp_nonneg cm c) (fp_nonneg cm c h)

theorem recall_nonneg (cm : CMatrix) (c : ℕ) : 0 ≤ recall' cm c :=
  ratio_nonneg _ _ (tp_nonneg cm c)

theorem recall_le_one (cm : CMatrix) (c : ℕ) : recall' cm c ≤ 1 :=
  ratio_le_one _ _ (tp_nonneg cm c) (fn_nonneg cm c)

theorem sensitivity_eq_recall (cm : CMatrix) (c : ℕ) :
    sensitivity cm c = recall' cm c := rfl

theorem specificity_nonneg (cm : CMatrix) (c : ℕ) (h : c < cm.length) :
    0 ≤ specificity cm c :=
  ratio_nonneg _ _ (tn_nonneg cm c h)

theorem specificity_le_one (cm : CMatrix) (c : ℕ) (h : c < cm.length) :
    specificity cm c ≤ 1 :=
  ratio_le_one _ _ (tn_nonneg cm c h) (fp_nonneg cm c h)

theorem f1_nonneg (cm : CMatrix) (c : ℕ) : 0 ≤ f1 cm c := by
  have hp := precision_nonneg cm c
  have hr := recall_nonneg cm c
  unfold f1
  split
  · exact div_nonneg (by nlinarith) (le_of_lt (by assumption))
  · exact le_refl 0

theorem f1_le_one (cm : CMatrix) (c : ℕ) (h : c < cm.length) :
    f1 cm c ≤ 1 := by
  have hp0 := precision_nonneg cm c
  have hp1 := precision_le_one cm c h
  have hr0 := recall_nonneg cm c
  have hr1 := recall_le_one cm c
  unfold f1
  split
  · rename_i hpr
    rw [div_le_one hpr]
    nlinarith [mul_nonneg hp0 (sub_nonneg.mpr hr1),
      mul_nonneg hr0 (sub_nonneg.mpr hp1)]
  · norm_num

theorem balancedAccuracy_nonneg (cm : CMatrix) (c : ℕ) (h : c < cm.length) :
    0 ≤ balancedAccuracy cm c := by
  unfold balancedAccuracy
  have h1 : 0 ≤ sensitivity cm c := recall_nonneg cm c
  have h2 := specificity_nonneg cm c h
  linarith

theorem balancedAccuracy_le_one (cm : CMatrix) (c : ℕ) (h : c < cm.length) :
    balancedAccuracy cm c ≤ 1 := by
  unfold balancedAccuracy
  have h1 : sensitivity cm c ≤ 1 := recall_le_one cm c
  have h2 := specificity_le_one cm c h
  linarith

/-- The weighted_accuracy denominator is the grand total. -/
theorem weightedAccuracy_eq (cm : CMatrix) (c : ℕ) :
    weightedAccuracy cm c
      = ((tp cm c + tn cm c : ℤ) : ℚ) / (totalSamples cm : ℚ) := by
  unfold weightedAccuracy
  rw [show tp cm c + tn cm c + fp cm c + fn cm c = (totalSamples cm : ℤ)
    from counts_sum cm c]
  push_cast
  ring_nf

theorem weightedAccuracy_nonneg (cm : CMatrix) (c : ℕ) (h : c < cm.length) :
    0 ≤ weightedAccuracy cm c := by
  rw [weightedAccuracy_eq]
  have h1 := tp_nonneg cm c
  have h2 := tn_nonneg cm c h
  apply div_nonneg (by exact_mod_cast by omega) (by positivity)

theorem weightedAccuracy_le_one (cm : CMatrix) (c : ℕ) (h : c < cm.length) :
    weightedAccuracy cm c ≤ 1 := by
  rw [weightedAccuracy_eq]
  rcases Nat.eq_zero_or_pos (totalSamples cm) with h0 | h0
  · rw [h0]
    norm_num
  · rw [div_le_one (by exact_mod_cast h0)]
    have h1 := counts_sum cm c
    have h2 := fp_nonneg cm c h
    have h3 := fn_nonneg cm c
    exact_mod_cast by omega

/-- The square of the MCC numerator is at most the radicand: writing
a, b, c, d for tp, fp, fn, tn, the difference
(a+b)(a+c)(d+b)(d+c) - (ad-bc)^2 expands to a sum of products of the
four non-negative counts. -/
theorem mccNum_sq_le_mccRad (cm : CMatrix) (c : ℕ) (h : c < cm.length) :
    mccNum cm c ^ 2 ≤ mccRad cm c := by
  have ha := tp_nonneg cm c
  have hb := fp_nonneg cm c h
  have hc := fn_nonneg cm c
  have hd := tn_nonneg cm c h
  unfold mccNum mccRad
  nlinarith [mul_nonneg ha hb, mul_nonneg hc hd, mul_nonneg ha hc,
    mul_nonneg hb hd, mul_nonneg ha hd, mul_nonneg hb hc,
    mul_nonneg (mul_nonneg ha hb) hc, mul_nonneg (mul_nonneg ha hb) hd,
    mul_nonneg (mul_nonneg ha hc) hd, mul_nonneg (mul_nonneg hb hc) hd,
    mul_nonneg (mul_nonneg (mul_nonneg ha hb) hc) hd]

theorem mcc_abs_le_one (cm : CMatrix) (c : ℕ) (h : c < cm.length) :
    |mcc cm c| ≤ 1 := by
  unfold mcc
  split
  · rename_i hs
    have hpos : 0 < Real.sqrt (mccRad cm c) :=
      lt_of_le_of_ne (Real.sqrt_nonneg _) (Ne.symm hs)
    have hsq : ((mccNum cm c : ℝ)) ^ 2 ≤ ((mccRad cm c : ℝ)) := by
      exact_mod_cast mccNum_sq_le_mccRad cm c h
    have habs : |(mccNum cm c : ℝ)| ≤ Real.sqrt (mccRad cm c) := by
      rw [← Real.sqrt_sq_eq_abs]
      exact Real.sqrt_le_sqrt hsq
    rw [abs_div, abs_of_pos hpos, div_le_one hpos]
    exact habs
  · norm_num

theorem mcc_mem (cm : CMatrix) (c : ℕ) (h : c < cm.length) :
    -1 ≤ mcc cm c ∧ mcc cm c ≤ 1 := abs_le.mp (mcc_abs_le_one cm c h)

/-- The diagonal sum never exceeds the grand total. -/
theorem traceCM_le_total (cm : CMatrix) : traceCM cm ≤ totalSamples cm := by
  unfold traceCM
  rw [totalSamples_eq_sum_rowSum]
  calc ∑ i ∈ Finset.range (min cm.length (nCols cm)), entry cm i i
      ≤ ∑ i ∈ Finset.range (min cm.length (nCols cm)), rowSum cm i :=
        Finset.sum_le_sum fun i _ => entry_le_rowSum cm i i
    _ ≤ ∑ i ∈ Finset.range cm.length, rowSum cm i :=
        Finset.sum_le_sum_of_subset
          (Finset.range_subset.mpr (Nat.min_le_left _ _))

theorem accuracyQ_nonneg (cm : CMatrix) : 0 ≤ accuracyQ cm := by
  unfold accuracyQ
  positivity

theorem accuracyQ_le_one (cm : CMatrix) : accuracyQ cm ≤ 1 := by
  unfold accuracyQ
  rcases Nat.eq_zero_or_pos (totalSamples cm) with h0 | h0
  · rw [h0]
    norm_num
  · rw [div_le_one (by exact_mod_cast h0)]
    exact_mod_cast traceCM_le_total cm

/- np.mean and np.average of the per-class sequences, as indexed sums,
and their range facts. -/

theorem npMean_map_range {K : Type} [DivisionRing K] (n : ℕ) (f : ℕ → K) :
    npMean ((List.range n).map f) = (∑ i ∈ Finset.range n, f i) / (n : K) := by
  unfold npMean
  rw [map_range_sum, List.length_map, List.length_range]

theorem npAverage_map_range {K : Type} [DivisionRing K] (n : ℕ) (f : ℕ → K)
    (ws : List ℕ) (hw : ws.length = n) :
    npAverage ((List.range n).map f) ws
      = (∑ i ∈ Finset.range n, f i * (ws.getD i 0 : K)) / ((ws.sum : ℕ) : K) := by
  unfold npAverage
  rw [zipWith_mul_sum (g := fun w => (w : K)), List.length_map,
    List.length_range, hw, Nat.min_self]
  congr 1
  refine Finset.sum_congr rfl fun i hi => ?_
  rw [getD_map_range _ _ _ _ (Finset.mem_range.mp hi)]

theorem mean_mem {K : Type} [LinearOrderedField K] (n : ℕ) (hn : n ≠ 0)
    (f : ℕ → K) (a b : K) (hf : ∀ i, i < n → a ≤ f i ∧ f i ≤ b) :
    a ≤ (∑ i ∈ Finset.range n, f i) / (n : K)
      ∧ (∑ i ∈ Finset.range n, f i) / (n : K) ≤ b := by
  have hn' : (0 : K) < n := by exact_mod_cast Nat.pos_of_ne_zero hn
  have hlow : (n : K) * a ≤ ∑ i ∈ Finset.range n, f i := by
    calc (n : K) * a = ∑ _i ∈ Finset.range n, a := by
          rw [Finset.sum_const, Finset.card_range, nsmul_eq_mul]
      _ ≤ ∑ i ∈ Finset.range n, f i :=
          Finset.sum_le_sum fun i hi => (hf i (Finset.mem_range.mp hi)).1
  have hhigh : ∑ i ∈ Finset.range n, f i ≤ (n : K) * b := by
    calc ∑ i ∈ Finset.range n, f i
        ≤ ∑ _i ∈ Finset.range n, b :=
          Finset.sum_le_sum fun i hi => (hf i (Finset.mem_range.mp hi)).2
      _ = (n : K) * b := by
          rw [Finset.sum_const, Finset.card_range, nsmul_eq_mul]
  constructor
  · rw [le_div_iff₀ hn']
    linarith
  · rw [div_le_iff₀ hn']
    linarith

theorem wavg_mem {K : Type} [LinearOrderedField K] (n : ℕ) (f : ℕ → K)
    (w : ℕ → ℕ) (a b : K) (hw : 0 < ∑ i ∈ Finset.range n, (w i : K))
    (hf : ∀ i, i < n → a ≤ f i ∧ f i ≤ b) :
    a ≤ (∑ i ∈ Finset.range n, f i * (w i : K))
          / (∑ i ∈ Finset.range n, (w i : K))
      ∧ (∑ i ∈ Finset.range n, f i * (w i : K))
          / (∑ i ∈ Finset.range n, (w i : K)) ≤ b := by
  have hlow : (∑ i ∈ Finset.range n, (w i : K)) * a
      ≤ ∑ i ∈ Finset.range n, f i * (w i : K) := by
    rw [Finset.sum_mul]
    refine Finset.sum_le_sum fun i hi => ?_
    have h1 := (hf i (Finset.mem_range.mp hi)).1
    have h2 : (0 : K) ≤ (w i : K) := by positivity
    nlinarith
  have hhigh : ∑ i ∈ Finset.range n, f i * (w i : K)
      ≤ (∑ i ∈ Finset.range n, (w i : K)) * b := by
    rw [Finset.sum_mul]
    refine Finset.sum_le_sum fun i hi => ?_
    have h1 := (hf i (Finset.mem_range.mp hi)).2
    have h2 : (0 : K) ≤ (w i : K) := by positivity
    nlinarith
  constructor
  · rw [le_div_iff₀ hw]
    linarith
  · rw [div_le_iff₀ hw]
    linarith

/-- The weight vector handed to np.average, as an indexed sum of row
sums. -/
theorem classSamples_sum_range (cm : CMatrix) {K : Type} [DivisionRing K] :
    (((classSamples cm).sum : ℕ) : K)
      = ∑ i ∈ Finset.range cm.length, ((rowSum cm i : ℕ) : K) := by
  rw [classSamples_sum, totalSamples_eq_sum_rowSum]
  push_cast
  rfl

/- The reference algorithm of spec section 4.1, stated on its own terms
with list-level sums, for comparison with the implementation. -/

/-- Reference step 1: tp is the diagonal entry matrix[c][c]. -/
def refTp (cm : CMatrix) (c : ℕ) : ℤ := (cm.getD c []).getD c 0

/-- The column sum of index c, traversing the rows. -/
def refColSum (cm : CMatrix) (c : ℕ) : ℤ :=
  (cm.map fun row => ((row.getD c 0 : ℕ) : ℤ)).sum

/-- Reference step 2: fp = column-sum(c) - tp. -/
def refFp (cm : CMatrix) (c : ℕ) : ℤ := refColSum cm c - refTp cm c

/-- Reference step 3: fn = row-sum(c) - tp. -/
def refFn (cm : CMatrix) (c : ℕ) : ℤ :=
  ((cm.getD c []).map fun x => ((x : ℕ) : ℤ)).sum - refTp cm c

/-- The sum of all entries of the matrix. -/
def refTotal (cm : CMatrix) : ℤ :=
  (cm.map fun row => (row.map fun x => ((x : ℕ) : ℤ)).sum).sum

/-- Reference step 4: tn = total - tp - fp - fn. -/
def refTn (cm : CMatrix) (c : ℕ) : ℤ :=
  refTotal cm - refTp cm c - refFp cm c - refFn cm c

/-- Reference step 5: precision = tp/(tp+fp) if tp+fp > 0 else 0. -/
def refPrecision (cm : CMatrix) (c : ℕ) : ℚ :=
  if refTp cm c + refFp cm c > 0
  then (refTp cm c : ℚ) / ((refTp cm c : ℚ) + (refFp cm c : ℚ)) else 0

/-- Reference step 6: recall = tp/(tp+fn) if tp+fn > 0 else 0. -/
def refRecall (cm : CMatrix) (c : ℕ) : ℚ :=
  if refTp cm c + refFn cm c > 0
  then (refTp cm c : ℚ) / ((refTp cm c : ℚ) + (refFn cm c : ℚ)) else 0

/-- Reference step 7: f1 = 2*precision*recall/(precision+recall) if
precision+recall > 0 else 0. -/
def refF1 (cm : CMatrix) (c : ℕ) : ℚ :=
  if refPrecision cm c + refRecall cm c > 0
  then 2 * refPrecision cm c * refRecall cm c
        / (refPrecision cm c + refRecall cm c)
  else 0

/-- Reference step 8: specificity = tn/(tn+fp) if tn+fp > 0 else 0. -/
def refSpecificity (cm : CMatrix) (c : ℕ) : ℚ :=
  if refTn cm c + refFp cm c > 0
  then (refTn cm c : ℚ) / ((refTn cm c : ℚ) + (refFp cm c : ℚ)) else 0

/-- Reference step 9: balanced_accuracy = (recall + specificity)/2. -/
def refBalancedAccuracy (cm : CMatrix) (c : ℕ) : ℚ :=
  (refRecall cm c + refSpecificity cm c) / 2

/-- Reference step 11: mcc = ((tp*tn)-(fp*fn)) / sqrt of
(tp+fp)*(tp+fn)*(tn+fp)*(tn+fn) if that denominator is nonzero, else 0. -/
noncomputable def refMcc (cm : CMatrix) (c : ℕ) : ℝ :=
  if Real.sqrt (((refTp cm c + refFp cm c) * (refTp cm c + refFn cm c)
        * (refTn cm c + refFp cm c) * (refTn cm c + refFn cm c) : ℤ)) ≠ 0
  then ((refTp cm c * refTn cm c - refFp cm c * refFn cm c : ℤ) : ℝ)
        / Real.sqrt (((refTp cm c + refFp cm c) * (refTp cm c + refFn cm c)
            * (refTn cm c + refFp cm c) * (refTn cm c + refFn cm c) : ℤ))
  else 0

theorem refTp_eq (cm : CMatrix) (c : ℕ) : refTp cm c = tp cm c := rfl

theorem refColSum_eq (cm : CMatrix) (c : ℕ) :
    refColSum cm c = (colSum cm c : ℤ) := by
  unfold refColSum colSum
  have h := list_sum_eq_range (cm.map fun row => ((row.getD c 0 : ℕ) : ℤ))
  rw [List.length_map] at h
  rw [h]
  push_cast
  refine Finset.sum_congr rfl fun i hi => ?_
  have hi' := Finset.mem_range.mp hi
  simp [entry, List.getD_eq_getElem?_getD, List.getElem?_map,
    List.getElem?_eq_getElem hi']

theorem refFp_eq (cm : CMatrix) (c : ℕ) : refFp cm c = fp cm c := by
  unfold refFp fp
  rw [refColSum_eq, refTp_eq]

theorem refFn_eq (cm : CMatrix) (c : ℕ) : refFn cm c = fn cm c := by
  unfold refFn fn rowSum
  rw [refTp_eq, ← Nat.cast_list_sum]

theorem refTotal_eq (cm : CMatrix) :
    refTotal cm = (totalSamples cm : ℤ) := by
  unfold refTotal totalSamples
  rw [Nat.cast_list_sum, List.map_map]
  exact congrArg List.sum
    (List.map_congr_left fun row _ => (Nat.cast_list_sum row).symm)

theorem refTn_eq (cm : CMatrix) (c : ℕ) : refTn cm c = tn cm c := by
  unfold refTn tn
  rw [refTotal_eq, refTp_eq, refFp_eq, refFn_eq]
  ring

theorem refPrecision_eq (cm : CMatrix) (c : ℕ) :
    refPrecision cm c = precision cm c := by
  unfold refPrecision precision
  rw [refTp_eq, refFp_eq]
  push_cast
  rfl

theorem refRecall_eq (cm : CMatrix) (c : ℕ) :
    refRecall cm c = recall' cm c := by
  unfold refRecall recall'
  rw [refTp_eq, refFn_eq]
  push_cast
  rfl

theorem refF1_eq (cm : CMatrix) (c : ℕ) : refF1 cm c = f1 cm c := by
  unfold refF1 f1
  rw [refPrecision_eq, refRecall_eq]
  ring_nf

theorem refSpecificity_eq (cm : CMatrix) (c : ℕ) :
    refSpecificity cm c = specificity cm c := by
  unfold refSpecificity specificity
  rw [refTn_eq, refFp_eq]
  push_cast
  rfl

theorem refBalancedAccuracy_eq (cm : CMatrix) (c : ℕ) :
    refBalancedAccuracy cm c = balancedAccuracy cm c := by
  unfold refBalancedAccuracy balancedAccuracy
  rw [refRecall_eq, refSpecificity_eq, sensitivity_eq_recall]

theorem refMcc_eq (cm : CMatrix) (c : ℕ) : refMcc cm c = mcc cm c := by
  unfold refMcc mcc mccRad mccNum
  rw [refTp_eq, refFp_eq, refFn_eq, refTn_eq]

/-- Claim C1: on a square matrix of counts with at least one class, the
per-class quantities the implementation computes (tp, fp, fn, tn and the
guarded metrics, every zero-denominator case yielding 0 in place of an
error) coincide with the reference algorithm of spec section 4.1 at every
class index. -/
theorem c1_per_class_reference (cm : CMatrix) (_hr : rect cm)
    (_hsq : nCols cm = cm.length) (_hn : 1 ≤ cm.length) (c : ℕ)
    (_hc : c < cm.length) :
    tp cm c = refTp cm c ∧ fp cm c = refFp cm c ∧ fn cm c = refFn cm c
      ∧ tn cm c = refTn cm c ∧ precision cm c = refPrecision cm c
      ∧ recall' cm c = refRecall cm c ∧ f1 cm c = refF1 cm c
      ∧ specificity cm c = refSpecificity cm c
      ∧ balancedAccuracy cm c = refBalancedAccuracy cm c
      ∧ mcc cm c = refMcc cm c :=
  ⟨(refTp_eq cm c).symm, (refFp_eq cm c).symm, (refFn_eq cm c).symm,
    (refTn_eq cm c).symm, (refPrecision_eq cm c).symm,
    (refRecall_eq cm c).symm, (refF1_eq cm c).symm,
    (refSpecificity_eq cm c).symm, (refBalancedAccuracy_eq cm c).symm,
    (refMcc_eq cm c).symm⟩

/-- Claim C1 witness at the one-class matrix [[1]]. -/
theorem c1_per_class_reference_witness :
    (rect [[1]] ∧ nCols [[1]] = List.length [[1]]
        ∧ 1 ≤ List.length [[1]] ∧ 0 < List.length [[1]])
      ∧ (tp [[1]] 0 = refTp [[1]] 0 ∧ fp [[1]] 0 = refFp [[1]] 0
          ∧ fn [[1]] 0 = refFn [[1]] 0 ∧ tn [[1]] 0 = refTn [[1]] 0
          ∧ precision [[1]] 0 = refPrecision [[1]] 0
          ∧ recall' [[1]] 0 = refRecall [[1]] 0
          ∧ f1 [[1]] 0 = refF1 [[1]] 0
          ∧ specificity [[1]] 0 = refSpecificity [[1]] 0
          ∧ balancedAccuracy [[1]] 0 = refBalancedAccuracy [[1]] 0
          ∧ mcc [[1]] 0 = refMcc [[1]] 0) :=
  ⟨⟨by decide, by decide, by decide, by decide⟩,
    c1_per_class_reference [[1]] (by decide) (by decide) (by decide) 0
      (by decide)⟩

/-- np.mean of a per-class sequence, as the indexed sum over classes. -/
theorem npMean_metric {K : Type} [DivisionRing K] (cm : CMatrix)
    (f : ℕ → K) :
    npMean ((List.range (nClasses cm)).map f)
      = (∑ c ∈ Finset.range cm.length, f c) / (cm.length : K) := by
  rw [npMean_map_range]
  unfold nClasses
  rfl

/-- np.average of a per-class sequence with the row-sum weights, as the
indexed sums over classes. -/
theorem npAverage_metric {K : Type} [DivisionRing K] (cm : CMatrix)
    (f : ℕ → K) :
    npAverage ((List.range (nClasses cm)).map f) (classSamples cm)
      = (∑ c ∈ Finset.range cm.length, f c * ((rowSum cm c : ℕ) : K))
          / (∑ c ∈ Finset.range cm.length, ((rowSum cm c : ℕ) : K)) := by
  rw [npAverage_map_range _ f _ (by simp [classSamples, nClasses]),
    classSamples_sum_range]
  unfold nClasses
  congr 1
  exact Finset.sum_congr rfl fun i _ => by rw [classSamples_getD]

/-- Claim C2: whenever the call returns, each macro_X field is the
unweighted arithmetic mean of the per-class X values, and each weighted_X
field is the row-sum-weighted mean: sum of X_c times samples_c divided by
the sum of samples_c, with samples_c the row sum of class c — exactly, in
the rational (and, for mcc, real) arithmetic of the embedding. -/
theorem c2_macro_weighted_averages (cm : CMatrix) (r : MetricsResult)
    (h : compute cm = .ok r) :
    (r.macro_precision
        = (∑ c ∈ Finset.range cm.length, precision cm c) / (cm.length : ℚ)
      ∧ r.macro_recall
        = (∑ c ∈ Finset.range cm.length, recall' cm c) / (cm.length : ℚ)
      ∧ r.macro_f1_score
        = (∑ c ∈ Finset.range cm.length, f1 cm c) / (cm.length : ℚ)
      ∧ r.macro_balanced_accuracy
        = (∑ c ∈ Finset.range cm.length, balancedAccuracy cm c)
            / (cm.length : ℚ)
      ∧ r.macro_weighted_accuracy
        = (∑ c ∈ Finset.range cm.length, weightedAccuracy cm c)
            / (cm.length : ℚ)
      ∧ r.macro_mcc
        = (∑ c ∈ Finset.range cm.length, mcc cm c) / (cm.length : ℝ))
    ∧ (r.weighted_precision
        = (∑ c ∈ Finset.range cm.length, precision cm c * (rowSum cm c : ℚ))
            / (∑ c ∈ Finset.range cm.length, (rowSum cm c : ℚ))
      ∧ r.weighted_recall
        = (∑ c ∈ Finset.range cm.length, recall' cm c * (rowSum cm c : ℚ))
            / (∑ c ∈ Finset.range cm.length, (rowSum cm c : ℚ))
      ∧ r.weighted_f1_score
        = (∑ c ∈ Finset.range cm.length, f1 cm c * (rowSum cm c : ℚ))
            / (∑ c ∈ Finset.range cm.length, (rowSum cm c : ℚ))
      ∧ r.weighted_balanced_accuracy
        = (∑ c ∈ Finset.range cm.length,
              balancedAccuracy cm c * (rowSum cm c : ℚ))
            / (∑ c ∈ Finset.range cm.length, (rowSum cm c : ℚ))
      ∧ r.weighted_weighted_accuracy
        = (∑ c ∈ Finset.range cm.length,
              weightedAccuracy cm c * (rowSum cm c : ℚ))
            / (∑ c ∈ Finset.range cm.length, (rowSum cm c : ℚ))
      ∧ r.weighted_mcc
        = (∑ c ∈ Finset.range cm.length, mcc cm c * (rowSum cm c : ℝ))
            / (∑ c ∈ Finset.range cm.length, (rowSum cm c : ℝ))) := by
  obtain ⟨-, -, -, -, hres⟩ := compute_ok_inv cm r h
  subst hres
  simp only [results]
  unfold precisionList recallList f1List balancedAccuracyList
    weightedAccuracyList mccList
  exact ⟨⟨npMean_metric cm _, npMean_metric cm _, npMean_metric cm _,
      npMean_metric cm _, npMean_metric cm _, npMean_metric cm _⟩,
    ⟨npAverage_metric cm _, npAverage_metric cm _, npAverage_metric cm _,
      npAverage_metric cm _, npAverage_metric cm _, npAverage_metric cm _⟩⟩

/-- Claim C2 witness at the matrix [[1]]. -/
theorem c2_macro_weighted_averages_witness :
    compute [[1]] = .ok (results [[1]])
      ∧ (results [[1]]).macro_precision
          = (∑ c ∈ Finset.range (List.length [[1]]), precision [[1]] c)
              / ((List.length [[1]] : ℕ) : ℚ) := by
  have hok : compute [[1]] = .ok (results [[1]]) :=
    compute_eq_ok [[1]] (by decide) (by decide) (by decide) (by decide)
  exact ⟨hok, (c2_macro_weighted_averages [[1]] (results [[1]]) hok).1.1⟩

/-- Claim C3 counterexample: the non-square 2-by-3 matrix from the spec
example is accepted and produces a full result; no InvalidMatrixError (or
any failure) occurs. -/
theorem c3_counterexample :
    List.length ([[1, 0, 0], [0, 1, 0]] : CMatrix) = 2
      ∧ nCols ([[1, 0, 0], [0, 1, 0]] : CMatrix) = 3
      ∧ (compute [[1, 0, 0], [0, 1, 0]]).isOk = true := by
  refine ⟨by decide, by decide, ?_⟩
  rw [compute_eq_ok [[1, 0, 0], [0, 1, 0]] (by decide) (by decide)
    (by decide) (by decide)]
  rfl

/-- Claim C3 amended: the code performs no squareness validation and no
InvalidMatrixError exists.  On a rectangular matrix with at least one
row and a nonzero total, the call returns a complete result whenever the
matrix has at least as many columns as rows (non-square included), and
fails with an IndexError (from indexing a missing column in the class
loop) when it has more rows than columns. -/
theorem c3_amended_no_validation (cm : CMatrix) (hr : rect cm)
    (hn : cm.length ≠ 0) (ht : totalSamples cm ≠ 0) :
    (cm.length ≤ nCols cm → compute cm = .ok (results cm))
      ∧ (nCols cm < cm.length → compute cm = .error .indexError) := by
  constructor
  · intro hc
    exact compute_eq_ok cm hr hn hc ht
  · intro hc
    unfold compute
    rw [if_neg (by simpa using hr), if_neg hn, if_pos hc]

/-- Claim C3 amended witness at the 2-by-3 matrix. -/
theorem c3_amended_no_validation_witness :
    (rect ([[1, 0, 0], [0, 1, 0]] : CMatrix)
        ∧ List.length ([[1, 0, 0], [0, 1, 0]] : CMatrix) ≠ 0
        ∧ totalSamples [[1, 0, 0], [0, 1, 0]] ≠ 0)
      ∧ ((List.length ([[1, 0, 0], [0, 1, 0]] : CMatrix)
            ≤ nCols ([[1, 0, 0], [0, 1, 0]] : CMatrix)
          → compute [[1, 0, 0], [0, 1, 0]]
              = .ok (results [[1, 0, 0], [0, 1, 0]]))
        ∧ (nCols ([[1, 0, 0], [0, 1, 0]] : CMatrix)
            < List.length ([[1, 0, 0], [0, 1, 0]] : CMatrix)
          → compute [[1, 0, 0], [0, 1, 0]] = .error .indexError)) :=
  ⟨⟨by decide, by decide, by decide⟩,
    c3_amended_no_validation [[1, 0, 0], [0, 1, 0]] (by decide) (by decide)
      (by decide)⟩

/-- Claim C4 counterexample: on the all-zero square matrix [[0]] (total
sample count zero), the weighted averaging divides by a zero weight sum
and the call fails with ZeroDivisionError instead of returning a
result. -/
theorem c4_counterexample :
    compute [[0]] = .error .zeroDivisionError := by
  unfold compute
  rw [if_neg (by decide), if_neg (by decide), if_neg (by decide),
    if_pos (by decide)]

/-- Claim C4 amended: on a square matrix with a nonzero total sample
count, a class of zero row sum (zero weight) causes no division fault:
the weight sum handed to np.average is the nonzero total, and the call
returns a complete result.  When the total itself is zero, np.average
raises ZeroDivisionError, so the call fails rather than returning. -/
theorem c4_zero_weight_classes (cm : CMatrix) (hr : rect cm)
    (hsq : nCols cm = cm.length) (ht : totalSamples cm ≠ 0) :
    compute cm = .ok (results cm) ∧ (classSamples cm).sum ≠ 0 := by
  have hn : cm.length ≠ 0 := by
    intro h0
    rw [List.length_eq_zero] at h0
    subst h0
    exact ht rfl
  exact ⟨compute_eq_ok cm hr hn (by omega) ht,
    by rw [classSamples_sum]; exact ht⟩

/-- Claim C4 amended witness at [[0,0],[0,1]], whose class 0 has zero row
sum yet the call returns a complete result. -/
theorem c4_zero_weight_classes_witness :
    (rect ([[0, 0], [0, 1]] : CMatrix)
        ∧ nCols ([[0, 0], [0, 1]] : CMatrix)
            = List.length ([[0, 0], [0, 1]] : CMatrix)
        ∧ totalSamples [[0, 0], [0, 1]] ≠ 0
        ∧ rowSum [[0, 0], [0, 1]] 0 = 0)
      ∧ (compute [[0, 0], [0, 1]] = .ok (results [[0, 0], [0, 1]])
          ∧ (classSamples [[0, 0], [0, 1]]).sum ≠ 0) :=
  ⟨⟨by decide, by decide, by decide, by decide⟩,
    c4_zero_weight_classes [[0, 0], [0, 1]] (by decide) (by decide)
      (by decide)⟩

/-- Claim C5: whenever the call returns, the overall accuracy equals the
trace of the matrix divided by the sum of all its entries, and lies in
[0, 1]. -/
theorem c5_accuracy_trace (cm : CMatrix) (r : MetricsResult)
    (_hsq : nCols cm = cm.length) (h : compute cm = .ok r) :
    r.accuracy = (traceCM cm : ℚ) / (totalSamples cm : ℚ)
      ∧ 0 ≤ r.accuracy ∧ r.accuracy ≤ 1 := by
  obtain ⟨-, -, -, -, hres⟩ := compute_ok_inv cm r h
  subst hres
  exact ⟨rfl, accuracyQ_nonneg cm, accuracyQ_le_one cm⟩

/-- Claim C5 witness at the matrix [[1]]. -/
theorem c5_accuracy_trace_witness :
    (nCols [[1]] = List.length [[1]]
        ∧ compute [[1]] = .ok (results [[1]]))
      ∧ ((results [[1]]).accuracy
            = (traceCM [[1]] : ℚ) / (totalSamples [[1]] : ℚ)
          ∧ 0 ≤ (results [[1]]).accuracy ∧ (results [[1]]).accuracy ≤ 1) := by
  have hok : compute [[1]] = .ok (results [[1]]) :=
    compute_eq_ok [[1]] (by decide) (by decide) (by decide) (by decide)
  exact ⟨⟨by decide, hok⟩, c5_accuracy_trace [[1]] (results [[1]])
    (by decide) hok⟩

/-- Membership in a mapped range list gives the pointwise bounds. -/
theorem mem_map_range_bounds {K : Type} [LinearOrderedField K] (n : ℕ)
    (f : ℕ → K) (a b : K) (hf : ∀ c, c < n → a ≤ f c ∧ f c ≤ b)
    (x : K) (hx : x ∈ (List.range n).map f) : a ≤ x ∧ x ≤ b := by
  obtain ⟨c, hc, rfl⟩ := List.mem_map.mp hx
  exact hf c (List.mem_range.mp hc)

/-- np.mean of a pointwise bounded per-class sequence is bounded. -/
theorem npMean_bounds {K : Type} [LinearOrderedField K] (cm : CMatrix)
    (f : ℕ → K) (a b : K) (hn : cm.length ≠ 0)
    (hf : ∀ c, c < cm.length → a ≤ f c ∧ f c ≤ b) :
    a ≤ npMean ((List.range (nClasses cm)).map f)
      ∧ npMean ((List.range (nClasses cm)).map f) ≤ b := by
  rw [npMean_metric]
  exact mean_mem cm.length hn f a b hf

/-- np.average of a pointwise bounded per-class sequence with the row-sum
weights is bounded whenever the total is nonzero. -/
theorem npAverage_bounds {K : Type} [LinearOrderedField K] (cm : CMatrix)
    (f : ℕ → K) (a b : K) (ht : totalSamples cm ≠ 0)
    (hf : ∀ c, c < cm.length → a ≤ f c ∧ f c ≤ b) :
    a ≤ npAverage ((List.range (nClasses cm)).map f) (classSamples cm)
      ∧ npAverage ((List.range (nClasses cm)).map f) (classSamples cm)
          ≤ b := by
  rw [npAverage_metric]
  refine wavg_mem cm.length f (rowSum cm) a b ?_ hf
  rw [← classSamples_sum_range, classSamples_sum]
  exact_mod_cast Nat.pos_of_ne_zero ht

/-- Claim C6: on a square matrix with at least one class of nonzero row
and column sums, the call returns, and every scalar it returns is
bounded: per-class and aggregated mcc lie in [-1, 1] and every other
per-class and aggregated metric, and the accuracy, lies in [0, 1] (in
the exact arithmetic of the embedding no NaN or infinity exists, the
guards substituting 0 at every vanishing denominator). -/
theorem c6_all_scalars_bounded (cm : CMatrix) (hr : rect cm)
    (hsq : nCols cm = cm.length)
    (hcl : ∃ c, c < cm.length ∧ rowSum cm c ≠ 0 ∧ colSum cm c ≠ 0) :
    compute cm = .ok (results cm)
      ∧ (∀ x ∈ (results cm).precision, 0 ≤ x ∧ x ≤ 1)
      ∧ (∀ x ∈ (results cm).recall', 0 ≤ x ∧ x ≤ 1)
      ∧ (∀ x ∈ (results cm).f1_score, 0 ≤ x ∧ x ≤ 1)
      ∧ (∀ x ∈ (results cm).balanced_accuracy, 0 ≤ x ∧ x ≤ 1)
      ∧ (∀ x ∈ (results cm).weighted_accuracy, 0 ≤ x ∧ x ≤ 1)
      ∧ (∀ x ∈ (results cm).mcc, -1 ≤ x ∧ x ≤ 1)
      ∧ (0 ≤ (results cm).accuracy ∧ (results cm).accuracy ≤ 1)
      ∧ (0 ≤ (results cm).macro_precision ∧ (results cm).macro_precision ≤ 1)
      ∧ (0 ≤ (results cm).macro_recall ∧ (results cm).macro_recall ≤ 1)
      ∧ (0 ≤ (results cm).macro_f1_score ∧ (results cm).macro_f1_score ≤ 1)
      ∧ (0 ≤ (results cm).macro_balanced_accuracy
          ∧ (results cm).macro_balanced_accuracy ≤ 1)
      ∧ (0 ≤ (results cm).macro_weighted_accuracy
          ∧ (results cm).macro_weighted_accuracy ≤ 1)
      ∧ (-1 ≤ (results cm).macro_mcc ∧ (results cm).macro_mcc ≤ 1)
      ∧ (0 ≤ (results cm).weighted_precision
          ∧ (results cm).weighted_precision ≤ 1)
      ∧ (0 ≤ (results cm).weighted_recall
          ∧ (results cm).weighted_recall ≤ 1)
      ∧ (0 ≤ (results cm).weighted_f1_score
          ∧ (results cm).weighted_f1_score ≤ 1)
      ∧ (0 ≤ (results cm).weighted_balanced_accuracy
          ∧ (results cm).weighted_balanced_accuracy ≤ 1)
      ∧ (0 ≤ (results cm).weighted_weighted_accuracy
          ∧ (results cm).weighted_weighted_accuracy ≤ 1)
      ∧ (-1 ≤ (results cm).weighted_mcc ∧ (results cm).weighted_mcc ≤ 1) := by
  obtain ⟨c0, hc0, hrow0, hcol0⟩ := hcl
  have hn : cm.length ≠ 0 := by omega
  have ht : totalSamples cm ≠ 0 := by
    intro h0
    apply hrow0
    have hle : rowSum cm c0 ≤ totalSamples cm := by
      rw [totalSamples_eq_sum_rowSum]
      exact Finset.single_le_sum (f := fun i => rowSum cm i)
        (fun i _ => Nat.zero_le _) (Finset.mem_range.mpr hc0)
    omega
  have hprec : ∀ c, c < cm.length
      → 0 ≤ precision cm c ∧ precision cm c ≤ 1 :=
    fun c hc => ⟨precision_nonneg cm c, precision_le_one cm c hc⟩
  have hrec : ∀ c, c < cm.length → 0 ≤ recall' cm c ∧ recall' cm c ≤ 1 :=
    fun c _ => ⟨recall_nonneg cm c, recall_le_one cm c⟩
  have hf1b : ∀ c, c < cm.length → 0 ≤ f1 cm c ∧ f1 cm c ≤ 1 :=
    fun c hc => ⟨f1_nonneg cm c, f1_le_one cm c hc⟩
  have hbab : ∀ c, c < cm.length
      → 0 ≤ balancedAccuracy cm c ∧ balancedAccuracy cm c ≤ 1 :=
    fun c hc => ⟨balancedAccuracy_nonneg cm c hc,
      balancedAccuracy_le_one cm c hc⟩
  have hwab : ∀ c, c < cm.length
      → 0 ≤ weightedAccuracy cm c ∧ weightedAccuracy cm c ≤ 1 :=
    fun c hc => ⟨weightedAccuracy_nonneg cm c hc,
      weightedAccuracy_le_one cm c hc⟩
  have hmccb : ∀ c, c < cm.length → -1 ≤ mcc cm c ∧ mcc cm c ≤ 1 :=
    fun c hc => mcc_mem cm c hc
  refine ⟨compute_eq_ok cm hr hn (by omega) ht, ?_, ?_, ?_, ?_, ?_, ?_,
    ⟨accuracyQ_nonneg cm, accuracyQ_le_one cm⟩, ?_, ?_, ?_, ?_, ?_, ?_,
    ?_, ?_, ?_, ?_, ?_, ?_⟩
  · exact fun x hx => mem_map_range_bounds _ _ _ _ hprec x hx
  · exact fun x hx => mem_map_range_bounds _ _ _ _ hrec x hx
  · exact fun x hx => mem_map_range_bounds _ _ _ _ hf1b x hx
  · exact fun x hx => mem_map_range_bounds _ _ _ _ hbab x hx
  · exact fun x hx => mem_map_range_bounds _ _ _ _ hwab x hx
  · exact fun x hx => mem_map_range_bounds _ _ _ _ hmccb x hx
  · exact npMean_bounds cm _ _ _ hn hprec
  · exact npMean_bounds cm _ _ _ hn hrec
  · exact npMean_bounds cm _ _ _ hn hf1b
  · exact npMean_bounds cm _ _ _ hn hbab
  · exact npMean_bounds cm _ _ _ hn hwab
  · exact npMean_bounds cm _ _ _ hn hmccb
  · exact npAverage_bounds cm _ _ _ ht hprec
  · exact npAverage_bounds cm _ _ _ ht hrec
  · exact npAverage_bounds cm _ _ _ ht hf1b
  · exact npAverage_bounds cm _ _ _ ht hbab
  · exact npAverage_bounds cm _ _ _ ht hwab
  · exact npAverage_bounds cm _ _ _ ht hmccb

/-- Claim C6 witness at the matrix [[1]]. -/
theorem c6_all_scalars_bounded_witness :
    (rect [[1]] ∧ nCols [[1]] = List.length [[1]]
        ∧ (∃ c, c < List.length ([[1]] : CMatrix)
            ∧ rowSum [[1]] c ≠ 0 ∧ colSum [[1]] c ≠ 0))
      ∧ (compute [[1]] = .ok (results [[1]])
          ∧ (0 ≤ (results [[1]]).accuracy ∧ (results [[1]]).accuracy ≤ 1)
          ∧ (-1 ≤ (results [[1]]).macro_mcc
              ∧ (results [[1]]).macro_mcc ≤ 1)) := by
  have hex : ∃ c, c < List.length ([[1]] : CMatrix)
      ∧ rowSum [[1]] c ≠ 0 ∧ colSum [[1]] c ≠ 0 :=
    ⟨0, by decide, by decide, by decide⟩
  have h := c6_all_scalars_bounded [[1]] (by decide) (by decide) hex
  exact ⟨⟨by decide, by decide, hex⟩,
    h.1, h.2.2.2.2.2.2.2.1, h.2.2.2.2.2.2.2.2.2.2.2.2.2.1⟩

/-- All off-diagonal entries of the matrix are zero. -/
def offDiagZero (cm : CMatrix) : Prop :=
  ∀ i ∈ List.range cm.length, ∀ j ∈ List.range cm.length,
    i ≠ j → entry cm i j = 0

instance (cm : CMatrix) : Decidable (offDiagZero cm) := by
  unfold offDiagZero
  infer_instance

/-- On a rectangular matrix every in-range row has the common length. -/
theorem row_length_of_rect (cm : CMatrix) (i : ℕ) (hr : rect cm)
    (h : i < cm.length) : (cm.getD i []).length = nCols cm := by
  apply hr
  rw [List.getD_eq_getElem?_getD, List.getElem?_eq_getElem h]
  exact List.getElem_mem h

/-- On a rectangular matrix the row sum is the indexed sum over the
columns. -/
theorem rowSum_eq_range (cm : CMatrix) (i : ℕ) (hr : rect cm)
    (h : i < cm.length) :
    rowSum cm i = ∑ j ∈ Finset.range (nCols cm), entry cm i j := by
  unfold rowSum
  rw [list_sum_eq_range, row_length_of_rect cm i hr h]
  exact Finset.sum_congr rfl fun j _ => rfl

/-- On a square diagonal matrix, row c sums to its diagonal entry. -/
theorem diag_rowSum (cm : CMatrix) (i : ℕ) (hr : rect cm)
    (hsq : nCols cm = cm.length) (hd : offDiagZero cm)
    (h : i < cm.length) : rowSum cm i = entry cm i i := by
  rw [rowSum_eq_range cm i hr h, hsq]
  apply Finset.sum_eq_single
  · intro j hj hne
    exact hd i (List.mem_range.mpr h) j
      (List.mem_range.mpr (Finset.mem_range.mp hj)) (Ne.symm hne)
  · intro hni
    exact absurd (Finset.mem_range.mpr h) hni

/-- On a diagonal matrix, column c sums to its diagonal entry. -/
theorem diag_colSum (cm : CMatrix) (c : ℕ) (hd : offDiagZero cm)
    (h : c < cm.length) : colSum cm c = entry cm c c := by
  unfold colSum
  apply Finset.sum_eq_single
  · intro i hi hne
    exact hd i (List.mem_range.mpr (Finset.mem_range.mp hi)) c
      (List.mem_range.mpr h) hne
  · intro hni
    exact absurd (Finset.mem_range.mpr h) hni

/-- On a square diagonal matrix the trace is the grand total. -/
theorem diag_trace (cm : CMatrix) (hr : rect cm)
    (hsq : nCols cm = cm.length) (hd : offDiagZero cm) :
    traceCM cm = totalSamples cm := by
  unfold traceCM
  rw [hsq, Nat.min_self, totalSamples_eq_sum_rowSum]
  exact Finset.sum_congr rfl fun i hi =>
    (diag_rowSum cm i hr hsq hd (Finset.mem_range.mp hi)).symm

/-- Claim C7 counterexample: [[5]] is square and diagonal with a nonzero
row sum, yet its (only) per-class mcc is 0, not 1: with tn = 0 the mcc
radicand vanishes and the zero-denominator guard substitutes 0. -/
theorem c7_counterexample :
    offDiagZero [[5]] ∧ rowSum [[5]] 0 ≠ 0
      ∧ compute [[5]] = .ok (results [[5]])
      ∧ mcc [[5]] 0 = 0 ∧ mcc [[5]] 0 ≠ 1 := by
  have hm : mcc [[5]] 0 = 0 := by
    have hrad : mccRad [[5]] 0 = 0 := by decide
    unfold mcc
    rw [hrad]
    simp
  refine ⟨by decide, by decide, ?_, hm, by rw [hm]; norm_num⟩
  exact compute_eq_ok [[5]] (by decide) (by decide) (by decide) (by decide)

/-- Claim C7 amended: a square diagonal matrix with nonzero total yields
accuracy 1, and every class of nonzero row sum has precision, recall and
f1 equal to 1; its mcc is 1 when tn is nonzero (some other class also
has samples) but 0 when tn is zero, since then the mcc radicand
vanishes and the guard substitutes 0. -/
theorem c7_diagonal_matrix (cm : CMatrix) (hr : rect cm)
    (hsq : nCols cm = cm.length) (hd : offDiagZero cm)
    (ht : totalSamples cm ≠ 0) :
    accuracyQ cm = 1
      ∧ ∀ c, c < cm.length → rowSum cm c ≠ 0 →
          precision cm c = 1 ∧ recall' cm c = 1 ∧ f1 cm c = 1
            ∧ (tn cm c ≠ 0 → mcc cm c = 1)
            ∧ (tn cm c = 0 → mcc cm c = 0) := by
  constructor
  · unfold accuracyQ
    rw [diag_trace cm hr hsq hd]
    exact div_self (by exact_mod_cast ht)
  intro c hc hrow
  have hdr := diag_rowSum cm c hr hsq hd hc
  have htp : tp cm c = (rowSum cm c : ℤ) := by
    unfold tp
    rw [hdr]
  have hfp : fp cm c = 0 := by
    unfold fp tp
    rw [diag_colSum cm c hd hc]
    ring
  have hfn : fn cm c = 0 := by
    unfold fn tp
    rw [hdr]
    ring
  have htppos : 0 < tp cm c := by
    rw [htp]
    exact_mod_cast Nat.pos_of_ne_zero hrow
  have htpQ : ((tp cm c : ℤ) : ℚ) ≠ 0 := by
    exact_mod_cast ne_of_gt htppos
  have hprec : precision cm c = 1 := by
    unfold precision
    rw [hfp, add_zero, if_pos htppos]
    exact div_self htpQ
  have hrec : recall' cm c = 1 := by
    unfold recall'
    rw [hfn, add_zero, if_pos htppos]
    exact div_self htpQ
  have hf1 : f1 cm c = 1 := by
    unfold f1
    rw [hprec, hrec]
    norm_num
  refine ⟨hprec, hrec, hf1, ?_, ?_⟩
  · intro htn
    have htnpos : 0 < tn cm c := lt_of_le_of_ne (tn_nonneg cm c hc)
      (Ne.symm htn)
    have hprod : 0 < tp cm c * tn cm c := mul_pos htppos htnpos
    have hrad : mccRad cm c = (tp cm c * tn cm c) ^ 2 := by
      unfold mccRad
      rw [hfp, hfn]
      ring
    have hnum : mccNum cm c = tp cm c * tn cm c := by
      unfold mccNum
      rw [hfp, hfn]
      ring
    have hcast : (((tp cm c * tn cm c) ^ 2 : ℤ) : ℝ)
        = ((tp cm c * tn cm c : ℤ) : ℝ) ^ 2 := by
      push_cast
      ring
    have hsqrt : Real.sqrt (((tp cm c * tn cm c) ^ 2 : ℤ))
        = ((tp cm c * tn cm c : ℤ) : ℝ) := by
      rw [hcast, Real.sqrt_sq (by exact_mod_cast hprod.le)]
    unfold mcc
    rw [hrad, hnum, hsqrt, if_pos (by exact_mod_cast ne_of_gt hprod)]
    exact div_self (by exact_mod_cast ne_of_gt hprod)
  · intro htn
    have hrad : mccRad cm c = 0 := by
      unfold mccRad
      rw [hfp, hfn, htn]
      ring
    unfold mcc
    rw [hrad]
    simp

/-- Claim C7 amended witness at the diagonal matrix [[2,0],[0,2]]. -/
theorem c7_diagonal_matrix_witness :
    (rect ([[2, 0], [0, 2]] : CMatrix)
        ∧ nCols ([[2, 0], [0, 2]] : CMatrix)
            = List.length ([[2, 0], [0, 2]] : CMatrix)
        ∧ offDiagZero [[2, 0], [0, 2]]
        ∧ totalSamples [[2, 0], [0, 2]] ≠ 0
        ∧ 0 < List.length ([[2, 0], [0, 2]] : CMatrix)
        ∧ rowSum [[2, 0], [0, 2]] 0 ≠ 0 ∧ tn [[2, 0], [0, 2]] 0 ≠ 0)
      ∧ (accuracyQ [[2, 0], [0, 2]] = 1
          ∧ precision [[2, 0], [0, 2]] 0 = 1
          ∧ recall' [[2, 0], [0, 2]] 0 = 1
          ∧ f1 [[2, 0], [0, 2]] 0 = 1
          ∧ mcc [[2, 0], [0, 2]] 0 = 1) := by
  have h := c7_diagonal_matrix [[2, 0], [0, 2]] (by decide) (by decide)
    (by decide) (by decide)
  have h0 := h.2 0 (by decide) (by decide)
  exact ⟨⟨by decide, by decide, by decide, by decide, by decide,
      by decide, by decide⟩,
    h.1, h0.1, h0.2.1, h0.2.2.1, h0.2.2.2.1 (by decide)⟩

/-- In the total-confusion matrix [[0,1],[1,0]] both classes have mcc
-1: tn = 2 - (0+1+1) = 0, so the radicand is 1*1*1*1 = 1, the
denominator is 1 and the numerator 0*0 - 1*1 = -1. -/
theorem mcc_total_confusion :
    mcc [[0, 1], [1, 0]] 0 = -1 ∧ mcc [[0, 1], [1, 0]] 1 = -1 := by
  constructor
  · have hrad : mccRad [[0, 1], [1, 0]] 0 = 1 := by decide
    have hnum : mccNum [[0, 1], [1, 0]] 0 = -1 := by decide
    unfold mcc
    rw [hrad, hnum]
    norm_num [Real.sqrt_one]
  · have hrad : mccRad [[0, 1], [1, 0]] 1 = 1 := by decide
    have hnum : mccNum [[0, 1], [1, 0]] 1 = -1 := by decide
    unfold mcc
    rw [hrad, hnum]
    norm_num [Real.sqrt_one]

/-- Claim C8 counterexample: on [[0,1],[1,0]] the per-class mcc is -1,
not -0.5: the claim takes tn = 1, but tn = 2 - (0+1+1) = 0, so the
radicand is 1, not 4. -/
theorem c8_counterexample :
    mcc [[0, 1], [1, 0]] 0 ≠ -(1 / 2 : ℝ) := by
  rw [mcc_total_confusion.1]
  norm_num

/-- Claim C8 amended: on [[0,1],[1,0]] the call returns accuracy 0, both
classes have precision, recall and f1 equal to 0, and both classes have
mcc -1 (numerator -1 over denominator sqrt 1). -/
theorem c8_total_confusion_values :
    compute [[0, 1], [1, 0]] = .ok (results [[0, 1], [1, 0]])
      ∧ accuracyQ [[0, 1], [1, 0]] = 0
      ∧ precision [[0, 1], [1, 0]] 0 = 0 ∧ precision [[0, 1], [1, 0]] 1 = 0
      ∧ recall' [[0, 1], [1, 0]] 0 = 0 ∧ recall' [[0, 1], [1, 0]] 1 = 0
      ∧ f1 [[0, 1], [1, 0]] 0 = 0 ∧ f1 [[0, 1], [1, 0]] 1 = 0
      ∧ mcc [[0, 1], [1, 0]] 0 = -1 ∧ mcc [[0, 1], [1, 0]] 1 = -1 :=
  ⟨compute_eq_ok [[0, 1], [1, 0]] (by decide) (by decide) (by decide)
      (by decide),
    by with_unfolding_all rfl, by with_unfolding_all rfl,
    by with_unfolding_all rfl, by with_unfolding_all rfl,
    by with_unfolding_all rfl, by with_unfolding_all rfl,
    by with_unfolding_all rfl, mcc_total_confusion.1,
    mcc_total_confusion.2⟩

/-- Claim C10: whenever the call returns, each of the six per-class
sequences has length equal to the row count, its entry at index c is the
per-class metric of class c (so the six sequences are index-aligned with
the class order of the matrix), and each macro average is the sum of the
corresponding sequence divided by that same length. -/
theorem c10_per_class_alignment (cm : CMatrix) (r : MetricsResult)
    (h : compute cm = .ok r) :
    (r.precision.length = cm.length ∧ r.recall'.length = cm.length
      ∧ r.f1_score.length = cm.length
      ∧ r.balanced_accuracy.length = cm.length
      ∧ r.weighted_accuracy.length = cm.length
      ∧ r.mcc.length = cm.length)
    ∧ (∀ c, c < cm.length →
        r.precision.getD c 0 = precision cm c
          ∧ r.recall'.getD c 0 = recall' cm c
          ∧ r.f1_score.getD c 0 = f1 cm c
          ∧ r.balanced_accuracy.getD c 0 = balancedAccuracy cm c
          ∧ r.weighted_accuracy.getD c 0 = weightedAccuracy cm c
          ∧ r.mcc.getD c 0 = mcc cm c)
    ∧ (r.macro_precision = r.precision.sum / (r.precision.length : ℚ)
      ∧ r.macro_recall = r.recall'.sum / (r.recall'.length : ℚ)
      ∧ r.macro_f1_score = r.f1_score.sum / (r.f1_score.length : ℚ)
      ∧ r.macro_balanced_accuracy
          = r.balanced_accuracy.sum / (r.balanced_accuracy.length : ℚ)
      ∧ r.macro_weighted_accuracy
          = r.weighted_accuracy.sum / (r.weighted_accuracy.length : ℚ)
      ∧ r.macro_mcc = r.mcc.sum / (r.mcc.length : ℝ)) := by
  obtain ⟨-, -, -, -, hres⟩ := compute_ok_inv cm r h
  subst hres
  simp only [results]
  refine ⟨⟨?_, ?_, ?_, ?_, ?_, ?_⟩, ?_, rfl, rfl, rfl, rfl, rfl, rfl⟩
  · simp [precisionList, nClasses]
  · simp [recallList, nClasses]
  · simp [f1List, nClasses]
  · simp [balancedAccuracyList, nClasses]
  · simp [weightedAccuracyList, nClasses]
  · simp [mccList, nClasses]
  · intro c hc
    unfold precisionList recallList f1List balancedAccuracyList
      weightedAccuracyList mccList nClasses
    exact ⟨getD_map_range _ _ _ _ hc, getD_map_range _ _ _ _ hc,
      getD_map_range _ _ _ _ hc, getD_map_range _ _ _ _ hc,
      getD_map_range _ _ _ _ hc, getD_map_range _ _ _ _ hc⟩

/-- Claim C10 witness at the matrix [[1]]. -/
theorem c10_per_class_alignment_witness :
    compute [[1]] = .ok (results [[1]])
      ∧ (results [[1]]).precision.length = List.length ([[1]] : CMatrix)
      ∧ (results [[1]]).precision.getD 0 0 = precision [[1]] 0 := by
  have hok : compute [[1]] = .ok (results [[1]]) :=
    compute_eq_ok [[1]] (by decide) (by decide) (by decide) (by decide)
  have h := c10_per_class_alignment [[1]] (results [[1]]) hok
  exact ⟨hok, h.1.1, (h.2.1 0 (by decide)).1⟩

end PrecisionRecall
